import Mathlib

/-!
Verification of the backup core of `launcher-minecraft-handler` (src/lib.rs).

The Rust code is shallowly embedded: the filesystem is modelled as an explicit
state (`Fs`) holding directory listings, file contents and `stat` sizes, and
every function of the library becomes a Lean function over that state.
Machine integers are modelled as `Nat` with explicit reductions modulo `2 ^ 32`
(the `as u32` cast in `count_files`) and `2 ^ 64` (`u64` accumulation in
`get_backup_size`).
-/

/-! ## Generic list utilities -/

/-- Split a character list at every occurrence of `sep`.  `splitBy sep l`
always returns at least one (possibly empty) chunk; separators are not kept. -/
def splitBy (sep : Char) : List Char → List (List Char)
  | [] => [[]]
  | c :: cs =>
    if c = sep then [] :: splitBy sep cs
    else
      match splitBy sep cs with
      | [] => [[c]]
      | g :: gs => (c :: g) :: gs

theorem splitBy_ne_nil (sep : Char) (l : List Char) : splitBy sep l ≠ [] := by
  induction l with
  | nil => simp [splitBy]
  | cons c cs ih =>
    simp only [splitBy]
    split
    · simp
    · split
      · simp
      · simp

theorem splitBy_append (sep : Char) (a b : List Char) :
    splitBy sep (a ++ sep :: b) = splitBy sep a ++ splitBy sep b := by
  induction a with
  | nil => simp [splitBy]
  | cons c cs ih =>
    by_cases hc : c = sep
    · subst hc
      simp [splitBy, ih]
    · have hstep : splitBy sep ((c :: cs) ++ sep :: b) =
          match splitBy sep (cs ++ sep :: b) with
          | [] => [[c]]
          | g :: gs => (c :: g) :: gs := by
        simp [splitBy, if_neg hc]
      rw [hstep, ih]
      cases h : splitBy sep cs with
      | nil => exact absurd h (splitBy_ne_nil sep cs)
      | cons g gs => simp [splitBy, if_neg hc, h]

theorem splitBy_of_not_mem (sep : Char) (l : List Char) (h : sep ∉ l) :
    splitBy sep l = [l] := by
  induction l with
  | nil => rfl
  | cons c cs ih =>
    simp only [List.mem_cons, not_or] at h
    have hc : ¬c = sep := fun hcc => h.1 hcc.symm
    simp [splitBy, hc, ih h.2]

/-- Folding a push-to-the-end loop is the same as appending the mapped list. -/
theorem foldl_push_eq_map {α β : Type} (f : α → β) (l : List α) (init : List β) :
    l.foldl (fun acc x => acc ++ [f x]) init = init ++ l.map f := by
  induction l generalizing init with
  | nil => simp
  | cons x xs ih => simp [ih]

/-- Folding an append-accumulating loop is the same as flattening. -/
theorem foldl_append_eq_flatten {α β : Type} (g : α → List β) (l : List α)
    (init : List β) :
    l.foldl (fun acc x => acc ++ g x) init = init ++ (l.map g).flatten := by
  induction l generalizing init with
  | nil => simp
  | cons x xs ih => simp [ih]

/-- Association-list lookup with propositional key equality (models a map from
paths to filesystem objects). -/
def lookupA {β : Type} (k : String) : List (String × β) → Option β
  | [] => none
  | (a, b) :: t => if a = k then some b else lookupA k t

theorem lookupA_mem {β : Type} {k : String} {l : List (String × β)} {v : β}
    (h : lookupA k l = some v) : (k, v) ∈ l := by
  induction l with
  | nil => simp [lookupA] at h
  | cons p t ih =>
    obtain ⟨a, b⟩ := p
    simp only [lookupA] at h
    split at h
    · rename_i ha
      cases h
      subst ha
      exact List.mem_cons_self _ _
    · exact List.mem_cons_of_mem _ (ih h)

/-! ## Data model (src/lib.rs, lines 8-35)

`Folders`, `BackUpOptions` and `BackUpData` are direct translations of the
Rust structs.  `SystemTime` is modelled as an `Int` number of seconds relative
to the UNIX epoch (negative = before the epoch, the `Err` branch of
`duration_since`). -/

inductive Folders
  | Saves
  | Config
  | Screenshots
  | Mods
  | Logs
  | Backups
  deriving DecidableEq

structure BackUpOptions where
  default_minecraft_path : String
  folder_options : List Folders
  destination_path : String
  compress : Bool
  excluded_extensions : List String
  deriving DecidableEq

structure BackUpData where
  options : BackUpOptions
  timestamp : Int
  size_in_bytes : Nat
  file_count : Nat
  json_size_in_bytes : Nat
  deriving DecidableEq

/-! ## Filesystem model

A directory entry as yielded by `read_dir`: a file name (no separators in real
listings) and the kind of object it denotes.  `Path::is_file` follows
symlinks, so a symlink to a regular file counts as a file while directories
and symlinks to directories do not. -/

inductive EntryKind
  | file
  | dir
  | symlinkFile
  | symlinkDir
  deriving DecidableEq

def EntryKind.isFileKind : EntryKind → Bool
  | .file => true
  | .symlinkFile => true
  | .dir => false
  | .symlinkDir => false

structure DirEntry where
  name : String
  kind : EntryKind
  deriving DecidableEq

/-- The filesystem state.  `dirs` backs `read_dir` (a missing key means the
directory is absent or unreadable), `files` backs `File::open` / `write` /
`exists` (path to contents), and `meta` backs the `metadata` size query, kept
separate from `files` because enumeration, `stat` and `open` are distinct,
non-atomic syscalls in the source. -/
structure Fs where
  dirs : List (String × List DirEntry)
  files : List (String × String)
  meta : List (String × Nat)
  deriving DecidableEq

/-- `metadata(file).len()`: the `u64` size reported by a `stat` query, `none`
when the query fails (file vanished, permission revoked). -/
def metaLen (fs : Fs) (p : String) : Option Nat :=
  (lookupA p fs.meta).map (fun n => n % 2 ^ 64)

/-! ## FolderResolver (src/lib.rs, lines 50-66) -/

/-- The fixed subdirectory name appended for each folder tag (hoisted from the
`match` inside `get_all_paths`). -/
def folderName : Folders → String
  | .Saves => "saves"
  | .Config => "config"
  | .Screenshots => "screenshots"
  | .Mods => "mods"
  | .Logs => "logs"
  | .Backups => "backups"

/-- `BackUpOptions::get_all_paths`: push `format!("{base}/{name}")` for each
selected folder tag, in order. -/
def get_all_paths (o : BackUpOptions) : List String :=
  o.folder_options.foldl
    (fun paths folder =>
      paths ++ [o.default_minecraft_path ++ "/" ++ folderName folder]) []

theorem get_all_paths_eq_map (o : BackUpOptions) :
    get_all_paths o =
      o.folder_options.map
        (fun t => o.default_minecraft_path ++ "/" ++ folderName t) := by
  simp [get_all_paths, foldl_push_eq_map]

/-! ## Extension handling (src/lib.rs, lines 101-107)

`Path::extension` (Rust std): `None` if the file name is `..`, has no `.`, or
its only `.` is leading; otherwise the portion of the name after the last
`.`.  The check operates on the entry's file name (the last path component,
which for `read_dir` results is the entry name). -/

def rustExtension (name : String) : Option String :=
  if name = ".." then none
  else
    match splitBy '.' name.data with
    | [] => none
    | [_] => none
    | first :: _ :: _ =>
      if first = [] ∧ (splitBy '.' name.data).length = 2 then none
      else ((splitBy '.' name.data).getLast?).map (fun c => String.mk c)

/-- Modelled from the spec: "extract the file's extension (substring after the
last `.` in its name, empty if none)" — the extension notion the claims use,
to be compared with `rustExtension`. -/
def specExtension (name : String) : String :=
  if '.' ∈ name.data then String.mk (((splitBy '.' name.data).getLast?).getD [])
  else ""

/-- The skip test of the enumeration loop: an entry is skipped iff
`path.extension()` yields `Some(ext)` whose UTF-8 form is a member of
`excluded_extensions` (in this model every extension is valid UTF-8, so the
`to_str` conversion always succeeds). -/
def excludedOf (excl : List String) (name : String) : Bool :=
  match rustExtension name with
  | some ext => decide (ext ∈ excl)
  | none => false

/-! ## FileEnumerator (src/lib.rs, lines 91-117) -/

/-- Inner loop of `get_all_files` over one resolved directory: skip the
directory when `read_dir` fails, otherwise push `entry.path()`
(= `dir ++ "/" ++ name`) for every regular file whose extension is not
excluded. -/
def dirLoop (fs : Fs) (excl : List String) (acc : List String) (dir : String) :
    List String :=
  match lookupA dir fs.dirs with
  | none => acc
  | some entries =>
    entries.foldl
      (fun acc e =>
        if e.kind.isFileKind then
          if excludedOf excl e.name then acc else acc ++ [dir ++ "/" ++ e.name]
        else acc) acc

/-- `BackUpOptions::get_all_files`. -/
def get_all_files (fs : Fs) (o : BackUpOptions) : List String :=
  (get_all_paths o).foldl (dirLoop fs o.excluded_extensions) []

/-- The files contributed by a single resolved directory, as a flat list. -/
def dirFilesFlat (fs : Fs) (excl : List String) (dir : String) : List String :=
  match lookupA dir fs.dirs with
  | none => []
  | some entries =>
    (entries.filter
        (fun e => e.kind.isFileKind && !excludedOf excl e.name)).map
      (fun e => dir ++ "/" ++ e.name)

theorem dirLoop_eq_flat (fs : Fs) (excl : List String) (acc : List String)
    (dir : String) :
    dirLoop fs excl acc dir = acc ++ dirFilesFlat fs excl dir := by
  unfold dirLoop dirFilesFlat
  cases lookupA dir fs.dirs with
  | none => simp
  | some entries =>
    simp only []
    induction entries generalizing acc with
    | nil => simp
    | cons e es ih =>
      by_cases hf : e.kind.isFileKind
      · by_cases hx : excludedOf excl e.name
        · simp [hf, hx, ih]
        · simp [hf, hx, ih]
      · simp [hf, ih]

theorem get_all_files_eq_flatten (fs : Fs) (o : BackUpOptions) :
    get_all_files fs o =
      ((get_all_paths o).map (dirFilesFlat fs o.excluded_extensions)).flatten := by
  unfold get_all_files
  have h : ∀ (l : List String) (init : List String),
      l.foldl (dirLoop fs o.excluded_extensions) init =
        init ++ (l.map (dirFilesFlat fs o.excluded_extensions)).flatten := by
    intro l
    induction l with
    | nil => simp
    | cons d ds ih =>
      intro init
      simp [dirLoop_eq_flat, ih]
  simpa using h (get_all_paths o) []

/-! ## BackupStatistics (src/lib.rs, lines 77-88 and 173-176) -/

/-- `BackUpOptions::get_backup_size`: enumerate, then accumulate
`metadata.len()` into a `u64` total, silently skipping files whose metadata
query fails.  The `u64` accumulator is modelled by reducing modulo `2 ^ 64`
after each addition (release-profile wrap-around). -/
def get_backup_size (fs : Fs) (o : BackUpOptions) : Nat :=
  (get_all_files fs o).foldl
    (fun total p =>
      match metaLen fs p with
      | some n => (total + n) % 2 ^ 64
      | none => total) 0

/-- `BackUpData::count_files`: `self.file_count = files.len() as u32` (the
`as u32` cast truncates modulo `2 ^ 32`). -/
def count_files (fs : Fs) (d : BackUpData) : BackUpData :=
  { d with file_count := (get_all_files fs d.options).length % 2 ^ 32 }

theorem get_backup_size_eq_sum (fs : Fs) (o : BackUpOptions) :
    get_backup_size fs o =
      ((get_all_files fs o).map (fun p => (metaLen fs p).getD 0)).sum % 2 ^ 64 := by
  unfold get_backup_size
  have h : ∀ (l : List String) (a : Nat), a < 2 ^ 64 →
      l.foldl
          (fun total p =>
            match metaLen fs p with
            | some n => (total + n) % 2 ^ 64
            | none => total) a =
        (a + (l.map (fun p => (metaLen fs p).getD 0)).sum) % 2 ^ 64 := by
    intro l
    induction l with
    | nil =>
      intro a ha
      simp only [List.foldl_nil, List.map_nil, List.sum_nil, Nat.add_zero]
      omega
    | cons p ps ih =>
      intro a ha
      cases hm : metaLen fs p with
      | none =>
        simp only [List.foldl_cons, hm, List.map_cons, List.sum_cons,
          Option.getD_none]
        rw [ih a ha, Nat.zero_add]
      | some n =>
        simp only [List.foldl_cons, hm, List.map_cons, List.sum_cons,
          Option.getD_some]
        rw [ih _ (Nat.mod_lt _ (by norm_num)), Nat.mod_add_mod, Nat.add_assoc]
  simpa using h (get_all_files fs o) 0 (by norm_num)

/-! ## Constructors and option mutators (src/lib.rs, lines 39-47, 68-74, 122-130) -/

/-- `BackUpOptions::new`: default excluded-extension list is empty. -/
def BackUpOptions.new (minecraft_path : String) (folder_options : List Folders)
    (destination_path : String) (compress : Bool) : BackUpOptions :=
  { default_minecraft_path := minecraft_path
    folder_options := folder_options
    destination_path := destination_path
    compress := compress
    excluded_extensions := [] }

def set_compress (o : BackUpOptions) (compress : Bool) : BackUpOptions :=
  { o with compress := compress }

def add_excluded_extension (o : BackUpOptions) (extension : String) :
    BackUpOptions :=
  { o with excluded_extensions := o.excluded_extensions ++ [extension] }

/-- `BackUpData::new`: captures `SystemTime::now()` (passed here as the
ambient clock value `now`, seconds relative to the UNIX epoch) and zeroes
`file_count` and `json_size_in_bytes`. -/
def BackUpData.new (options : BackUpOptions) (size_in_bytes : Nat) (now : Int) :
    BackUpData :=
  { options := options
    timestamp := now
    size_in_bytes := size_in_bytes
    file_count := 0
    json_size_in_bytes := 0 }

/-! ## Decimal and hexadecimal rendering

`format!("{}", n)` on an unsigned integer prints its decimal digits; the
fuel-based `baseChars` mirrors `Nat.toDigits` (most significant digit first,
`Nat.digitChar` maps 0-15 to `0`-`9`, `a`-`f`). -/

def baseChars (b : Nat) : Nat → Nat → List Char
  | 0, _ => []
  | fuel + 1, n =>
    if n < b then [Nat.digitChar n]
    else baseChars b fuel (n / b) ++ [Nat.digitChar (n % b)]

/-- Decimal rendering of a natural number (`Display` for Rust unsigned ints). -/
def natRepr (n : Nat) : String :=
  String.mk (baseChars 10 (n + 1) n)

/-- `Display` for `bool`. -/
def boolStr (b : Bool) : String :=
  if b then "true" else "false"

/-! ## Rust `Debug` rendering (the `{:?}` interpolations of `format_json`)

`Debug` for a `Vec` prints `[` item `, ` item ... `]`; for a derived unit
enum it prints the variant name; for a `str` it prints a quoted string with
`escape_debug` applied per character.  `escape_debug` keeps printable
characters verbatim and escapes quote, backslash, `\n`, `\r`, `\t` and other
non-printable characters as `\u{hex}`.  Unicode printability tables are out
of scope: this model treats every character outside the ASCII control range
as printable, which matches Rust on all ASCII data (the range every theorem
below restricts to). -/

def tagStr : Folders → String
  | .Saves => "Saves"
  | .Config => "Config"
  | .Screenshots => "Screenshots"
  | .Mods => "Mods"
  | .Logs => "Logs"
  | .Backups => "Backups"

def joinComma : List String → String
  | [] => ""
  | [s] => s
  | s :: rest => s ++ ", " ++ joinComma rest

def debugChar (c : Char) : List Char :=
  if c = '"' then ['\\', '"']
  else if c = '\\' then ['\\', '\\']
  else if c = '\n' then ['\\', 'n']
  else if c = '\r' then ['\\', 'r']
  else if c = '\t' then ['\\', 't']
  else if c.toNat < 32 ∨ c.toNat = 127 then
    '\\' :: 'u' :: '\x7b' :: (baseChars 16 (c.toNat + 1) c.toNat ++ ['\x7d'])
  else [c]

def debugStr (s : String) : String :=
  "\"" ++ String.mk ((s.data.map debugChar).flatten) ++ "\""

def debugFolderList (l : List Folders) : String :=
  "[" ++ joinComma (l.map tagStr) ++ "]"

def debugStrList (l : List String) : String :=
  "[" ++ joinComma (l.map debugStr) ++ "]"

/-! ## MetadataRecord serialization (src/lib.rs, lines 142-170) -/

/-- `self.timestamp.duration_since(UNIX_EPOCH)`: seconds when the timestamp is
at or after the epoch, `0` on the `Err` (pre-epoch) branch. -/
def tsSecs (t : Int) : Nat :=
  if t < 0 then 0 else t.toNat

/- The fixed chunks of the `format!` raw-string template, split at each
interpolation.  Whitespace (newlines, 16- and 20-space indents) is exactly
that of the source. -/

def litTs : String := "\x7b\n                \"timestamp\": "

def litSize : String := ",\n                \"size_in_bytes\": "

def litCount : String := ",\n                \"file_count\": "

def litFolders : String :=
  ",\n                \"options\": \x7b\n                    \"folder_options\": "

def litDest : String := ",\n                    \"destination_path\": \""

def litCompress : String := "\",\n                    \"compress\": "

def litExcl : String := ",\n                    \"excluded_extensions\": "

def litEnd : String := "\n                \x7d\n            \x7d"

/-- `BackUpData::format_json`: first calls `self.count_files()` (a mutation of
`file_count` — the record is returned alongside the text to make the `&mut
self` effect explicit), then renders the template. -/
def format_json (fs : Fs) (d : BackUpData) : String × BackUpData :=
  let d1 := count_files fs d
  (litTs ++ natRepr (tsSecs d1.timestamp) ++
    litSize ++ natRepr d1.size_in_bytes ++
    litCount ++ natRepr d1.file_count ++
    litFolders ++ debugFolderList d1.options.folder_options ++
    litDest ++ d1.options.destination_path ++
    litCompress ++ boolStr d1.options.compress ++
    litExcl ++ debugStrList d1.options.excluded_extensions ++
    litEnd, d1)

/-- `BackUpData::create_json_file`: renders the JSON text, records its byte
length in `json_size_in_bytes` and writes it to
`{destination_path}/backup_data.json` (modelled as prepending to the
file map; the `write` call is assumed to succeed). -/
def create_json_file (fs : Fs) (d : BackUpData) : BackUpData × Fs :=
  let r := format_json fs d
  let output_path := d.options.destination_path ++ "/backup_data.json"
  ({ r.2 with json_size_in_bytes := r.1.utf8ByteSize },
    { fs with files := (output_path, r.1) :: fs.files })

/-! ## Path components (Rust `std::path` on Unix)

`strip_prefix` compares paths component-wise, not textually: repeated
separators collapse, `.` components vanish (except a leading `.` of a
relative path), and a leading separator is the root component.  The result of
a successful strip is the remaining components (rendered with single
separators, as Rust's `Components::as_path` does). -/

inductive PathComp
  | rootDir
  | curDir
  | parentDir
  | normal (chars : List Char)
  deriving DecidableEq

/-- A non-empty, non-`.` chunk: `..` is the parent component, anything else a
normal component. -/
def chunkComp (c : List Char) : PathComp :=
  if c = ['.', '.'] then PathComp.parentDir else PathComp.normal c

/-- Components contributed by non-leading chunks: empty chunks (repeated or
trailing separators) and `.` chunks are dropped. -/
def normComps (chunks : List (List Char)) : List PathComp :=
  chunks.filterMap (fun c => if c = [] ∨ c = ['.'] then none else some (chunkComp c))

/-- The leading chunk of a relative path: a `.` is kept as the current-dir
component. -/
def headPathComp (c : List Char) : List PathComp :=
  if c = ['.'] then [PathComp.curDir] else [chunkComp c]

def componentsL (l : List Char) : List PathComp :=
  match l with
  | [] => []
  | c :: cs =>
    if c = '/' then PathComp.rootDir :: normComps (splitBy '/' (c :: cs))
    else
      match splitBy '/' (c :: cs) with
      | [] => []
      | first :: rest => headPathComp first ++ normComps rest

def componentsOf (s : String) : List PathComp :=
  componentsL s.data

def compRender : PathComp → List Char
  | .rootDir => []
  | .curDir => ['.']
  | .parentDir => ['.', '.']
  | .normal c => c

/-- Join chunks with single separators. -/
def joinSlash : List (List Char) → List Char
  | [] => []
  | [x] => x
  | x :: xs => x ++ '/' :: joinSlash xs

def renderComps : List PathComp → String
  | PathComp.rootDir :: rest => String.mk ('/' :: joinSlash (rest.map compRender))
  | comps => String.mk (joinSlash (comps.map compRender))

/-- Boolean component-list comparison used by the strip test. -/
def listStarts {α : Type} [DecidableEq α] : List α → List α → Bool
  | [], _ => true
  | _ :: _, [] => false
  | a :: as, b :: bs => if a = b then listStarts as bs else false

theorem listStarts_append_self {α : Type} [DecidableEq α] (l r : List α) :
    listStarts l (l ++ r) = true := by
  induction l with
  | nil => rfl
  | cons a as ih => simp [listStarts, ih]

/-- `Path::strip_prefix(base)`: succeeds iff `base`'s components lead `p`'s,
returning the remaining components. -/
def stripBase (base p : String) : Option String :=
  if listStarts (componentsOf base) (componentsOf p) then
    some (renderComps ((componentsOf p).drop (componentsOf base).length))
  else none

/-- The archive entry name computed at src/lib.rs lines 196-199:
`path.strip_prefix(&options.default_minecraft_path).unwrap_or(path)`. -/
def entryName (o : BackUpOptions) (p : String) : String :=
  (stripBase o.default_minecraft_path p).getD p

/-- A path is absolute iff it has a root component (starts with `/`). -/
def isAbsolute (s : String) : Bool :=
  s.data.head? = some '/'

/-! ## ArchiveBuilder (src/lib.rs, lines 181-216) -/

/-- The container path chosen at lines 183-187 and passed to `File::create`. -/
def zipPath (o : BackUpOptions) : String :=
  if o.compress then o.destination_path ++ "/backup.zip"
  else o.destination_path ++ "/backup"

/-- `remove_file`: drops every binding of the path from the file map. -/
def removeFileFs (fs : Fs) (p : String) : Fs :=
  { fs with files := fs.files.filter (fun q => decide (q.1 ≠ p)) }

/-- Outcome of a successful `zip_backup` run: the path handed to
`File::create` for the container, the archive entries in writing order
(entry name, copied bytes), and the filesystem afterwards.  The container's
own bytes are not modelled. -/
structure ZipResult where
  containerPath : String
  entries : List (String × String)
  fsAfter : Fs
  deriving DecidableEq

/-- The per-file loop of `zip_backup` (lines 195-203): for each enumerated
path, start an entry under its stripped name and copy the file's bytes;
`File::open(path).unwrap()` panics when the file cannot be opened, modelled
as `none`. -/
def openAll (fs : Fs) (o : BackUpOptions) (l : List String) :
    Option (List (String × String)) :=
  l.foldl
    (fun acc fp =>
      acc.bind fun entries =>
        match lookupA fp fs.files with
        | some contents => some (entries ++ [(entryName o fp, contents)])
        | none => none)
    (some [])

/-- `BackupManager::zip_backup`: enumerate, create the container, write one
entry per file, then, if `{destination_path}/backup_data.json` exists, append
it as entry `backup_data.json` and delete it from disk.  `File::create` is
assumed to succeed; a `none` result models a panic of one of the `unwrap`
calls. -/
def zipBackup (fs : Fs) (o : BackUpOptions) : Option ZipResult :=
  (openAll fs o (get_all_files fs o)).bind fun entries =>
    let json_path := o.destination_path ++ "/backup_data.json"
    match lookupA json_path fs.files with
    | some jc =>
      some { containerPath := zipPath o
             entries := entries ++ [("backup_data.json", jc)]
             fsAfter := removeFileFs fs json_path }
    | none =>
      some { containerPath := zipPath o, entries := entries, fsAfter := fs }

/-! ## Filesystem well-formedness

`read_dir` never yields an empty name, a name containing a separator, `.` or
`..`; theorems about entry names assume listings satisfy this. -/

def wfName (n : String) : Prop :=
  n.data ≠ [] ∧ '/' ∉ n.data ∧ n.data ≠ ['.'] ∧ n.data ≠ ['.', '.']

instance (n : String) : Decidable (wfName n) := by
  unfold wfName
  infer_instance

def wfFs (fs : Fs) : Prop :=
  ∀ pr ∈ fs.dirs, ∀ e ∈ pr.2, wfName e.name

instance (fs : Fs) : Decidable (wfFs fs) := by
  unfold wfFs
  infer_instance

/-! ## Enumeration membership characterization -/

theorem mem_get_all_files (fs : Fs) (o : BackUpOptions) (p : String) :
    p ∈ get_all_files fs o ↔
      ∃ dir, dir ∈ get_all_paths o ∧
        ∃ es, lookupA dir fs.dirs = some es ∧
          ∃ e, e ∈ es ∧ e.kind.isFileKind = true ∧
            excludedOf o.excluded_extensions e.name = false ∧
            p = dir ++ "/" ++ e.name := by
  rw [get_all_files_eq_flatten]
  simp only [List.mem_flatten, List.mem_map]
  constructor
  · rintro ⟨l, ⟨dir, hdir, rfl⟩, hp⟩
    refine ⟨dir, hdir, ?_⟩
    unfold dirFilesFlat at hp
    cases hes : lookupA dir fs.dirs with
    | none => rw [hes] at hp; simp at hp
    | some es =>
      rw [hes] at hp
      simp only [List.mem_map, List.mem_filter, Bool.and_eq_true,
        Bool.not_eq_true'] at hp
      obtain ⟨e, ⟨he, hfile, hexcl⟩, rfl⟩ := hp
      exact ⟨es, rfl, e, he, hfile, hexcl, rfl⟩
  · rintro ⟨dir, hdir, es, hes, e, he, hfile, hexcl, rfl⟩
    refine ⟨dirFilesFlat fs o.excluded_extensions dir, ⟨dir, hdir, rfl⟩, ?_⟩
    unfold dirFilesFlat
    rw [hes]
    simp only [List.mem_map, List.mem_filter, Bool.and_eq_true,
      Bool.not_eq_true']
    exact ⟨e, ⟨he, hfile, hexcl⟩, rfl⟩

/-! ## Claim theorems -/

/-- Claim C5: folder resolution returns exactly one path per input tag, in
input order, each equal to the base path followed by `/` and the tag's fixed
subdirectory name; `get_all_paths` is a pure function of the options value
(it takes no filesystem state and performs no existence validation). -/
theorem c5_folder_resolution (o : BackUpOptions) :
    get_all_paths o =
      o.folder_options.map
        (fun t => o.default_minecraft_path ++ "/" ++ folderName t) ∧
    folderName Folders.Saves = "saves" ∧
    folderName Folders.Config = "config" ∧
    folderName Folders.Screenshots = "screenshots" ∧
    folderName Folders.Mods = "mods" ∧
    folderName Folders.Logs = "logs" ∧
    folderName Folders.Backups = "backups" :=
  ⟨get_all_paths_eq_map o, rfl, rfl, rfl, rfl, rfl, rfl⟩

/-- Claim C3, counterexample: with `excluded_extensions = ["bak"]` and a file
named `.bak` in the selected folder, the claim's extension notion (substring
after the last `.`) is `bak`, a member of the exclusion set, yet enumeration
returns the file: `Path::extension` yields `None` for a dotfile whose only
`.` is leading, so the exclusion check is skipped. -/
theorem c3_counterexample :
    specExtension ".bak" = "bak" ∧
    "bak" ∈ (["bak"] : List String) ∧
    "/mc/saves/.bak" ∈
      get_all_files ⟨[("/mc/saves", [⟨".bak", EntryKind.file⟩])], [], []⟩
        ⟨"/mc", [Folders.Saves], "/out", true, ["bak"]⟩ := by
  decide

/-- Claim C3 (amended): enumeration returns exactly the regular files (and
symlinks to regular files) of the readable selected directories whose name's
extension — in the sense of Rust `Path::extension`: the portion after the
last `.`, undefined (hence never excluded) when the name has no `.` or only
a leading one — is not in the exclusion set. -/
theorem c3_enumeration (fs : Fs) (o : BackUpOptions) (p : String) :
    p ∈ get_all_files fs o ↔
      ∃ dir, dir ∈ get_all_paths o ∧
        ∃ es, lookupA dir fs.dirs = some es ∧
          ∃ e, e ∈ es ∧ e.kind.isFileKind = true ∧
            excludedOf o.excluded_extensions e.name = false ∧
            p = dir ++ "/" ++ e.name :=
  mem_get_all_files fs o p

/-- Claim C4, counterexample: two files whose `stat` sizes are each `2 ^ 63`
make the `u64` accumulator of `get_backup_size` wrap to `0`, while the
mathematical sum of per-file sizes is `2 ^ 64`. -/
theorem c4_counterexample :
    get_backup_size
        ⟨[("/mc/saves", [⟨"a", EntryKind.file⟩, ⟨"b", EntryKind.file⟩])], [],
          [("/mc/saves/a", 2 ^ 63), ("/mc/saves/b", 2 ^ 63)]⟩
        ⟨"/mc", [Folders.Saves], "/out", true, []⟩ = 0 ∧
    ((get_all_files
          ⟨[("/mc/saves", [⟨"a", EntryKind.file⟩, ⟨"b", EntryKind.file⟩])], [],
            [("/mc/saves/a", 2 ^ 63), ("/mc/saves/b", 2 ^ 63)]⟩
          ⟨"/mc", [Folders.Saves], "/out", true, []⟩).map
        (fun p =>
          (metaLen
              ⟨[("/mc/saves", [⟨"a", EntryKind.file⟩, ⟨"b", EntryKind.file⟩])],
                [], [("/mc/saves/a", 2 ^ 63), ("/mc/saves/b", 2 ^ 63)]⟩
              p).getD 0)).sum = 2 ^ 64 := by
  decide

/-- Claim C4 (amended): `count_files` records the length of the enumerated
sequence reduced modulo `2 ^ 32` (the `as u32` cast), independent of sizing;
`get_backup_size` equals the sum of per-file `stat` sizes modulo `2 ^ 64`
(`u64` accumulation), a failing metadata query contributing zero while the
file is still counted. -/
theorem c4_statistics (fs : Fs) (o : BackUpOptions) (d : BackUpData) :
    (count_files fs d).file_count = (get_all_files fs d.options).length % 2 ^ 32 ∧
    get_backup_size fs o =
      ((get_all_files fs o).map (fun p => (metaLen fs p).getD 0)).sum % 2 ^ 64 :=
  ⟨rfl, get_backup_size_eq_sum fs o⟩

/-- Claim C6, counterexample: serialization is not a read-only operation on
the record: `format_json` first calls `count_files`, which overwrites
`file_count` (here from 5 to 0, the enumeration length on an empty
filesystem). -/
theorem c6_counterexample :
    (format_json ⟨[], [], []⟩
        ⟨⟨"/mc", [], "/out", true, []⟩, 5, 7, 5, 0⟩).2.file_count ≠ 5 := by
  decide

/-- Claim C6 (amended): serialization leaves the record's timestamp, size and
copied options unchanged, but recomputes `file_count` as the current
enumeration length (modulo `2 ^ 32`); `create_json_file` has the same effect
on those fields. -/
theorem c6_serialization_frame (fs : Fs) (d : BackUpData) :
    (format_json fs d).2.timestamp = d.timestamp ∧
    (format_json fs d).2.size_in_bytes = d.size_in_bytes ∧
    (format_json fs d).2.options = d.options ∧
    (format_json fs d).2.file_count = (get_all_files fs d.options).length % 2 ^ 32 ∧
    (create_json_file fs d).1.timestamp = d.timestamp ∧
    (create_json_file fs d).1.size_in_bytes = d.size_in_bytes ∧
    (create_json_file fs d).1.options = d.options :=
  ⟨rfl, rfl, rfl, rfl, rfl, rfl, rfl⟩

/-- Claim C8: a selected folder whose directory is missing or unreadable is
skipped silently — enumeration (a total function, it returns a plain list
and raises no error) yields exactly the files of the remaining selected
folders. -/
theorem c8_missing_folder_skipped (fs : Fs) (base dest : String) (comp : Bool)
    (excl : List String) (l₁ l₂ : List Folders) (t : Folders)
    (h : lookupA (base ++ "/" ++ folderName t) fs.dirs = none) :
    get_all_files fs ⟨base, l₁ ++ t :: l₂, dest, comp, excl⟩ =
      get_all_files fs ⟨base, l₁ ++ l₂, dest, comp, excl⟩ := by
  rw [get_all_files_eq_flatten, get_all_files_eq_flatten,
    get_all_paths_eq_map, get_all_paths_eq_map]
  simp only [List.map_append, List.map_cons, List.flatten_append,
    List.flatten_cons]
  have hnil : dirFilesFlat fs excl (base ++ "/" ++ folderName t) = [] := by
    unfold dirFilesFlat
    rw [h]
  rw [hnil]
  simp

theorem c8_missing_folder_skipped_witness :
    get_all_files ⟨[("/mc/config", [⟨"o.txt", EntryKind.file⟩])], [], []⟩
        ⟨"/mc", [Folders.Config, Folders.Saves], "/out", true, []⟩ =
      get_all_files ⟨[("/mc/config", [⟨"o.txt", EntryKind.file⟩])], [], []⟩
        ⟨"/mc", [Folders.Config], "/out", true, []⟩ :=
  c8_missing_folder_skipped
    ⟨[("/mc/config", [⟨"o.txt", EntryKind.file⟩])], [], []⟩
    "/mc" "/out" true [] [Folders.Config] [] Folders.Saves (by decide)

/-- Claim C9: the container file is created at `{destination_path}/backup.zip`
when `compress` is true and at `{destination_path}/backup` when it is false,
and the compress flag does not change which entries go into the archive. -/
theorem c9_container_path (fs : Fs) (base dest : String) (fo : List Folders)
    (excl : List String) :
    zipPath ⟨base, fo, dest, true, excl⟩ = dest ++ "/backup.zip" ∧
    zipPath ⟨base, fo, dest, false, excl⟩ = dest ++ "/backup" ∧
    ∀ b₁ b₂ : Bool,
      (zipBackup fs ⟨base, fo, dest, b₁, excl⟩).map ZipResult.entries =
        (zipBackup fs ⟨base, fo, dest, b₂, excl⟩).map ZipResult.entries := by
  refine ⟨rfl, rfl, ?_⟩
  have key : ∀ b : Bool,
      (zipBackup fs ⟨base, fo, dest, b, excl⟩).map ZipResult.entries =
        (zipBackup fs ⟨base, fo, dest, false, excl⟩).map ZipResult.entries := by
    intro b
    unfold zipBackup
    have hopen : openAll fs ⟨base, fo, dest, b, excl⟩
          (get_all_files fs ⟨base, fo, dest, b, excl⟩) =
        openAll fs ⟨base, fo, dest, false, excl⟩
          (get_all_files fs ⟨base, fo, dest, false, excl⟩) := rfl
    rw [hopen]
    cases openAll fs ⟨base, fo, dest, false, excl⟩
        (get_all_files fs ⟨base, fo, dest, false, excl⟩) with
    | none => rfl
    | some entries =>
      cases hl : lookupA (dest ++ "/backup_data.json") fs.files <;>
        simp [hl]
  intro b₁ b₂
  rw [key b₁, key b₂]

/-- Claim C10: a folder tag occurring several times in `folder_options`
contributes its resolved path once per occurrence, hence its directory's
eligible files appear once per occurrence in the enumeration, and the
reported file count and total size (their `u32`/`u64` reductions) count
those files once per occurrence. -/
theorem c10_duplicate_tags (fs : Fs) (o : BackUpOptions) (d : BackUpData) :
    get_all_paths o =
      o.folder_options.map
        (fun t => o.default_minecraft_path ++ "/" ++ folderName t) ∧
    get_all_files fs o =
      (o.folder_options.map
        (fun t =>
          dirFilesFlat fs o.excluded_extensions
            (o.default_minecraft_path ++ "/" ++ folderName t))).flatten ∧
    (count_files fs d).file_count = (get_all_files fs d.options).length % 2 ^ 32 ∧
    get_backup_size fs o =
      ((get_all_files fs o).map (fun p => (metaLen fs p).getD 0)).sum % 2 ^ 64 := by
  refine ⟨get_all_paths_eq_map o, ?_, rfl, get_backup_size_eq_sum fs o⟩
  rw [get_all_files_eq_flatten, get_all_paths_eq_map, List.map_map]
  rfl

/-! ## Component decomposition lemmas -/

theorem normComps_append (a b : List (List Char)) :
    normComps (a ++ b) = normComps a ++ normComps b := by
  unfold normComps
  exact List.filterMap_append a b _

theorem componentsL_cons (c : Char) (cs : List Char) :
    componentsL (c :: cs) =
      if c = '/' then PathComp.rootDir :: normComps (splitBy '/' (c :: cs))
      else
        match splitBy '/' (c :: cs) with
        | [] => []
        | first :: rest => headPathComp first ++ normComps rest := rfl

theorem componentsL_append (b r : List Char) (hb : b ≠ []) :
    componentsL (b ++ '/' :: r) = componentsL b ++ normComps (splitBy '/' r) := by
  cases b with
  | nil => exact absurd rfl hb
  | cons c cs =>
    by_cases hc : c = '/'
    · subst hc
      show componentsL ('/' :: (cs ++ '/' :: r)) = _
      rw [componentsL_cons, componentsL_cons, if_pos rfl, if_pos rfl]
      have h1 : splitBy '/' ('/' :: (cs ++ '/' :: r)) =
          [] :: (splitBy '/' cs ++ splitBy '/' r) := by
        show (if '/' = '/' then [] :: splitBy '/' (cs ++ '/' :: r) else _) = _
        rw [if_pos rfl, splitBy_append]
      have h2 : splitBy '/' ('/' :: cs) = [] :: splitBy '/' cs := by
        show (if '/' = '/' then [] :: splitBy '/' cs else _) = _
        rw [if_pos rfl]
      rw [h1, h2]
      have hdrop : ∀ l : List (List Char), normComps ([] :: l) = normComps l := by
        intro l
        simp [normComps]
      rw [hdrop, hdrop, normComps_append]
      simp
    · show componentsL (c :: (cs ++ '/' :: r)) = _
      have hsplit : splitBy '/' (c :: (cs ++ '/' :: r)) =
          splitBy '/' (c :: cs) ++ splitBy '/' r := by
        have := splitBy_append '/' (c :: cs) r
        simpa using this
      cases h : splitBy '/' (c :: cs) with
      | nil => exact absurd h (splitBy_ne_nil _ _)
      | cons first rest =>
        rw [componentsL_cons, componentsL_cons, if_neg hc, if_neg hc, hsplit, h]
        simp only [List.cons_append]
        rw [normComps_append]
        simp

/-- `splitBy` on a separator-free list yields that single chunk. -/
theorem splitBy_single (sep : Char) (l : List Char) (h : sep ∉ l) :
    splitBy sep l = [l] :=
  splitBy_of_not_mem sep l h

theorem componentsOf_under (b seg name : String) (hb : b ≠ "")
    (hseg : wfName seg) (hname : wfName name) :
    componentsOf ((b ++ "/" ++ seg) ++ "/" ++ name) =
      componentsOf b ++ [PathComp.normal seg.data, PathComp.normal name.data] := by
  obtain ⟨hs1, hs2, hs3, hs4⟩ := hseg
  obtain ⟨hn1, hn2, hn3, hn4⟩ := hname
  have hbd : b.data ≠ [] := by
    intro h
    exact hb (String.ext (h.trans rfl))
  have hdata : ((b ++ "/" ++ seg) ++ "/" ++ name).data =
      b.data ++ '/' :: (seg.data ++ '/' :: name.data) := by
    simp [String.data_append]
  unfold componentsOf
  rw [hdata, componentsL_append _ _ hbd]
  have hmix : splitBy '/' (seg.data ++ '/' :: name.data) = [seg.data, name.data] := by
    rw [splitBy_append, splitBy_single '/' seg.data hs2, splitBy_single '/' name.data hn2]
    rfl
  rw [hmix]
  have : normComps [seg.data, name.data] =
      [PathComp.normal seg.data, PathComp.normal name.data] := by
    unfold normComps chunkComp
    simp [List.filterMap, hs1, hs3, hs4, hn1, hn3, hn4]
  rw [this]

theorem renderComps_two (a c : List Char) :
    renderComps [PathComp.normal a, PathComp.normal c] = String.mk (a ++ '/' :: c) :=
  rfl

theorem stripBase_under (b seg name : String) (hb : b ≠ "")
    (hseg : wfName seg) (hname : wfName name) :
    stripBase b ((b ++ "/" ++ seg) ++ "/" ++ name) = some (seg ++ "/" ++ name) := by
  unfold stripBase
  rw [componentsOf_under b seg name hb hseg hname,
    listStarts_append_self (componentsOf b)
      [PathComp.normal seg.data, PathComp.normal name.data]]
  rw [if_pos rfl, List.drop_left, renderComps_two]
  have : (seg ++ "/" ++ name).data = seg.data ++ '/' :: name.data := by
    simp [String.data_append]
  rw [show seg ++ "/" ++ name = String.mk (seg.data ++ '/' :: name.data) from
    String.ext this]

/-! ## Claim C2 -/

/-- Claim C2, counterexample: with an empty base directory path, every
resolved folder is `/saves` etc., `strip_prefix("")` succeeds with the whole
path, and the archive entry name `/saves/a.txt` is an absolute path. -/
theorem c2_counterexample :
    (zipBackup
          ⟨[("/saves", [⟨"a.txt", EntryKind.file⟩])], [("/saves/a.txt", "x")], []⟩
          ⟨"", [Folders.Saves], "/out", true, []⟩).map
        (fun r => r.entries.map Prod.fst) =
      some ["/saves/a.txt"] ∧
    isAbsolute "/saves/a.txt" = true := by
  decide

/-- Claim C2 (amended): each enumerated file's archive entry name is the file
path with the `{base}/` prefix removed (so prefixing the base re-forms the
path), and — provided the base directory path is non-empty — no such entry
name is absolute; when `strip_prefix` fails the file's own path is used as
the entry name.  (With an empty base path the stripped names keep their
leading separator and are absolute.) -/
theorem c2_entry_names (fs : Fs) (o : BackUpOptions) (hwf : wfFs fs)
    (hb : o.default_minecraft_path ≠ "") :
    (∀ p, stripBase o.default_minecraft_path p = none → entryName o p = p) ∧
    ∀ f ∈ get_all_files fs o,
      o.default_minecraft_path ++ "/" ++ entryName o f = f ∧
      isAbsolute (entryName o f) = false := by
  constructor
  · intro p h
    unfold entryName
    rw [h]
    rfl
  · intro f hf
    rw [mem_get_all_files] at hf
    obtain ⟨dir, hdir, es, hes, e, he, _, _, rfl⟩ := hf
    rw [get_all_paths_eq_map] at hdir
    obtain ⟨t, _, rfl⟩ := List.mem_map.mp hdir
    have hname : wfName e.name := hwf _ (lookupA_mem hes) e he
    have hseg : wfName (folderName t) := by cases t <;> decide
    have hstrip := stripBase_under o.default_minecraft_path (folderName t) e.name
      hb hseg hname
    unfold entryName
    rw [hstrip]
    constructor
    · show o.default_minecraft_path ++ "/" ++ (folderName t ++ "/" ++ e.name) = _
      apply String.ext
      simp [String.data_append]
    · show isAbsolute (folderName t ++ "/" ++ e.name) = false
      cases t <;> rfl

/-! ## Sample states used by the witnesses -/

def sampleFs : Fs :=
  ⟨[("/mc/saves", [⟨"a.txt", EntryKind.file⟩])], [("/mc/saves/a.txt", "hi")],
    [("/mc/saves/a.txt", 2)]⟩

def sampleOpts : BackUpOptions :=
  ⟨"/mc", [Folders.Saves], "/out", true, []⟩

def sampleData : BackUpData :=
  ⟨sampleOpts, 100, 2, 0, 0⟩

theorem c2_entry_names_witness :
    sampleOpts.default_minecraft_path ++ "/" ++
        entryName sampleOpts "/mc/saves/a.txt" = "/mc/saves/a.txt" ∧
    isAbsolute (entryName sampleOpts "/mc/saves/a.txt") = false :=
  (c2_entry_names sampleFs sampleOpts (by decide) (by decide)).2
    "/mc/saves/a.txt" (by decide)

/-! ## Claim C7 -/

theorem lookupA_filter_ne {β : Type} (l : List (String × β)) (p : String) :
    lookupA p (l.filter fun q => decide (q.1 ≠ p)) = none := by
  induction l with
  | nil => rfl
  | cons q t ih =>
    obtain ⟨a, b⟩ := q
    by_cases h : a = p
    · subst h
      simpa using ih
    · simp only [List.filter_cons, decide_eq_true_eq]
      rw [if_pos (by simpa using h)]
      simpa [lookupA, h] using ih

/-- Claim C7: after `create_json_file` followed by a successful `zip_backup`
(on the same options), the standalone `{destination_path}/backup_data.json`
no longer exists in the resulting filesystem, and the archive holds an entry
named `backup_data.json` whose bytes are the serialized metadata record. -/
theorem c7_metadata_folded (fs : Fs) (d : BackUpData) (res : ZipResult)
    (h : zipBackup (create_json_file fs d).2 d.options = some res) :
    lookupA (d.options.destination_path ++ "/backup_data.json")
        res.fsAfter.files = none ∧
    ("backup_data.json", (format_json fs d).1) ∈ res.entries := by
  set fs1 := (create_json_file fs d).2 with hfs1
  have hjson : lookupA (d.options.destination_path ++ "/backup_data.json")
      fs1.files = some (format_json fs d).1 := by
    rw [hfs1]
    show lookupA _ ((d.options.destination_path ++ "/backup_data.json",
      (format_json fs d).1) :: fs.files) = _
    simp [lookupA]
  unfold zipBackup at h
  cases ho : openAll fs1 d.options (get_all_files fs1 d.options) with
  | none =>
    rw [ho] at h
    simp at h
  | some entries =>
    rw [ho] at h
    simp only [Option.some_bind] at h
    rw [hjson] at h
    cases h
    constructor
    · show lookupA _ (removeFileFs fs1
        (d.options.destination_path ++ "/backup_data.json")).files = none
      unfold removeFileFs
      exact lookupA_filter_ne _ _
    · simp

def c7Res : ZipResult :=
  { containerPath := "/out/backup.zip"
    entries := [("saves/a.txt", "hi"),
      ("backup_data.json", (format_json sampleFs sampleData).1)]
    fsAfter := sampleFs }

set_option maxRecDepth 20000 in
theorem c7_metadata_folded_witness :
    lookupA (sampleData.options.destination_path ++ "/backup_data.json")
        c7Res.fsAfter.files = none ∧
    ("backup_data.json", (format_json sampleFs sampleData).1) ∈ c7Res.entries :=
  c7_metadata_folded sampleFs sampleData c7Res (by decide)

/-! ## Claim C1 — JSON validity

Modelled from the spec: "must be valid structured (JSON) form".  A fuel-based
recognizer for RFC 8259 JSON text, deliberately lenient (it accepts every
valid JSON document and possibly more: arbitrary escape characters inside
strings, raw control characters, leading zeros in numbers), so that a `false`
verdict certifies the text is not valid JSON. -/

def isWsChar (c : Char) : Bool :=
  c = ' ' ∨ c = '\n' ∨ c = '\t' ∨ c = '\r'

def skipWs (l : List Char) : List Char :=
  l.dropWhile isWsChar

/-- Recognize the rest of a JSON string after the opening quote (lenient:
any character may follow a backslash). -/
def checkStrBody : List Char → Option (List Char)
  | [] => none
  | '"' :: cs => some cs
  | '\\' :: [] => none
  | '\\' :: _ :: cs => checkStrBody cs
  | _ :: cs => checkStrBody cs

/-- Match a fixed literal at the head of the stream. -/
def consumeLitL : List Char → List Char → Option (List Char)
  | [], s => some s
  | _ :: _, [] => none
  | c :: cs, d :: ds => if d = c then consumeLitL cs ds else none

/-- Recognize a JSON number's fraction part (if present). -/
def checkFrac : List Char → Option (List Char)
  | '.' :: r =>
    if (r.takeWhile Char.isDigit).isEmpty then none
    else some (r.dropWhile Char.isDigit)
  | l => some l

/-- Recognize a JSON number's exponent part (if present). -/
def checkExp : List Char → Option (List Char)
  | c :: r =>
    if c = 'e' ∨ c = 'E' then
      let r2 := match r with
        | s :: r' => if s = '+' ∨ s = '-' then r' else s :: r'
        | [] => []
      if (r2.takeWhile Char.isDigit).isEmpty then none
      else some (r2.dropWhile Char.isDigit)
    else some (c :: r)
  | [] => some []

/-- Recognize a JSON number. -/
def checkNum (l : List Char) : Option (List Char) :=
  let l1 := match l with
    | '-' :: r => r
    | _ => l
  if (l1.takeWhile Char.isDigit).isEmpty then none
  else (checkFrac (l1.dropWhile Char.isDigit)).bind checkExp

mutual

/-- Recognize a JSON value (leading whitespace allowed). -/
def checkVal : Nat → List Char → Option (List Char)
  | 0, _ => none
  | fuel + 1, l =>
    match skipWs l with
    | [] => none
    | c :: cs =>
      if c = '\x7b' then
        match skipWs cs with
        | '\x7d' :: r => some r
        | r => (checkMember fuel r).bind (checkObjRest fuel)
      else if c = '[' then
        match skipWs cs with
        | ']' :: r => some r
        | r => (checkVal fuel r).bind (checkArrRest fuel)
      else if c = '"' then checkStrBody cs
      else if c = 't' then consumeLitL ['r', 'u', 'e'] cs
      else if c = 'f' then consumeLitL ['a', 'l', 's', 'e'] cs
      else if c = 'n' then consumeLitL ['u', 'l', 'l'] cs
      else checkNum (c :: cs)

/-- Recognize one `"key": value` object member. -/
def checkMember : Nat → List Char → Option (List Char)
  | 0, _ => none
  | fuel + 1, l =>
    match skipWs l with
    | '"' :: cs =>
      (checkStrBody cs).bind fun r =>
        match skipWs r with
        | ':' :: r2 => checkVal fuel r2
        | _ => none
    | _ => none

/-- Recognize the continuation of an object after one member. -/
def checkObjRest : Nat → List Char → Option (List Char)
  | 0, _ => none
  | fuel + 1, l =>
    match skipWs l with
    | ',' :: r => (checkMember fuel r).bind (checkObjRest fuel)
    | '\x7d' :: r => some r
    | _ => none

/-- Recognize the continuation of an array after one element. -/
def checkArrRest : Nat → List Char → Option (List Char)
  | 0, _ => none
  | fuel + 1, l =>
    match skipWs l with
    | ',' :: r => (checkVal fuel r).bind (checkArrRest fuel)
    | ']' :: r => some r
    | _ => none

end

/-- Modelled from the spec: a text is valid JSON iff it is whitespace, one
JSON value, and trailing whitespace. -/
def isValidJson (s : String) : Bool :=
  match checkVal (s.data.length + 1) s.data with
  | some r => (skipWs r).isEmpty
  | none => false

set_option maxRecDepth 20000 in
/-- Sanity anchor for the recognizer: a hand-written strictly-valid variant
of the metadata text (tag names quoted) is accepted. -/
theorem isValidJson_quoted_variant :
    isValidJson
      ("\x7b\n  \"timestamp\": 100,\n  \"size_in_bytes\": 2,\n  \"file_count\": 0,\n  \"options\": \x7b\n    \"folder_options\": [\"Saves\"],\n    \"destination_path\": \"/out\",\n    \"compress\": true,\n    \"excluded_extensions\": []\n  \x7d\n\x7d") =
      true := by
  decide

set_option maxRecDepth 40000 in
/-- Sanity anchor: the actual `format_json` output is accepted when
`folder_options` is empty (the `Debug`-rendered tag list is then `[]`),
isolating unquoted tag names as what breaks JSON validity. -/
theorem format_json_valid_when_no_tags :
    isValidJson
      (format_json ⟨[], [], []⟩
          ⟨⟨"/mc", [], "/out", true, []⟩, 100, 2, 0, 0⟩).1 = true := by
  decide

set_option maxRecDepth 40000 in
/-- Claim C1, counterexample: with `folder_options = [Saves]` the serialized
record contains the Rust `Debug` list `[Saves]` — a bare, unquoted word — so
the produced text is not valid JSON and no JSON parse of it can return the
record. -/
theorem c1_counterexample :
    isValidJson
      (format_json ⟨[], [], []⟩
          ⟨⟨"/mc", [Folders.Saves], "/out", true, []⟩, 100, 2, 0, 0⟩).1 =
      false := by
  decide

/-! ## Claim C1 — parsing the actual template

A parser for the text `format_json` actually produces, used to state the
amended round-trip property. -/

theorem consumeLitL_append (l r : List Char) : consumeLitL l (l ++ r) = some r := by
  induction l with
  | nil => rfl
  | cons c cs ih => simp [consumeLitL, ih]

theorem consumeLitL_self (l : List Char) : consumeLitL l l = some [] := by
  have h := consumeLitL_append l []
  rwa [List.append_nil] at h

def digitVal (c : Char) : Nat :=
  c.toNat - '0'.toNat

theorem digitChar_isDigit (n : Nat) (h : n < 10) :
    (Nat.digitChar n).isDigit = true := by
  interval_cases n <;> decide

theorem digitVal_digitChar (n : Nat) (h : n < 10) :
    digitVal (Nat.digitChar n) = n := by
  interval_cases n <;> decide

theorem baseChars10_spec (fuel : Nat) :
    ∀ n, n < fuel →
      (∀ c ∈ baseChars 10 fuel n, c.isDigit = true) ∧
      baseChars 10 fuel n ≠ [] ∧
      ∀ a, (baseChars 10 fuel n).foldl (fun x c => x * 10 + digitVal c) a =
        a * 10 ^ (baseChars 10 fuel n).length + n := by
  induction fuel with
  | zero => intro n h; omega
  | succ f ih =>
    intro n h
    by_cases h10 : n < 10
    · refine ⟨?_, ?_, ?_⟩
      · intro c hc
        simp only [baseChars, if_pos h10, List.mem_singleton] at hc
        subst hc
        exact digitChar_isDigit n h10
      · simp [baseChars, h10]
      · intro a
        simp [baseChars, h10, digitVal_digitChar n h10]
    · have hd : n / 10 < f := by omega
      obtain ⟨ihd, ihne, ihval⟩ := ih (n / 10) hd
      have hbc : baseChars 10 (f + 1) n =
          baseChars 10 f (n / 10) ++ [Nat.digitChar (n % 10)] := by
        simp [baseChars, h10]
      refine ⟨?_, ?_, ?_⟩
      · intro c hc
        rw [hbc] at hc
        rcases List.mem_append.mp hc with h1 | h1
        · exact ihd c h1
        · simp only [List.mem_singleton] at h1
          subst h1
          exact digitChar_isDigit _ (Nat.mod_lt _ (by norm_num))
      · rw [hbc]
        simp
      · intro a
        rw [hbc, List.foldl_append]
        simp only [List.foldl_cons, List.foldl_nil]
        rw [ihval a, digitVal_digitChar _ (Nat.mod_lt _ (by norm_num)),
          List.length_append]
        simp only [List.length_singleton, Nat.pow_succ]
        have hdm : n / 10 * 10 + n % 10 = n := by omega
        calc (a * 10 ^ (baseChars 10 f (n / 10)).length + n / 10) * 10 + n % 10
            = a * (10 ^ (baseChars 10 f (n / 10)).length * 10) +
              (n / 10 * 10 + n % 10) := by ring
          _ = a * (10 ^ (baseChars 10 f (n / 10)).length * 10) + n := by rw [hdm]

theorem natRepr_data (n : Nat) : (natRepr n).data = baseChars 10 (n + 1) n := rfl

theorem takeWhile_append_stop {p : Char → Bool} (a b : List Char)
    (ha : ∀ c ∈ a, p c = true) (hb : b.head?.all (fun c => !p c) = true) :
    (a ++ b).takeWhile p = a ∧ (a ++ b).dropWhile p = b := by
  induction a with
  | nil =>
    simp only [List.nil_append]
    cases b with
    | nil => simp
    | cons c cs =>
      simp only [List.head?_cons, Option.all_some, Bool.not_eq_true'] at hb
      simp [List.takeWhile_cons, List.dropWhile_cons, hb]
  | cons x xs ih =>
    have hx := ha x (List.mem_cons_self _ _)
    have hrest := ih (fun c hc => ha c (List.mem_cons_of_mem _ hc))
    simp [List.takeWhile_cons, List.dropWhile_cons, hx, hrest.1, hrest.2]

/-- Parse a decimal numeral (one or more digits). -/
def parseNatL (l : List Char) : Option (Nat × List Char) :=
  let ds := l.takeWhile Char.isDigit
  if ds.isEmpty then none
  else some (ds.foldl (fun a c => a * 10 + digitVal c) 0, l.dropWhile Char.isDigit)

theorem parseNatL_round (n : Nat) (r : List Char)
    (hr : r.head?.all (fun c => !c.isDigit) = true) :
    parseNatL (baseChars 10 (n + 1) n ++ r) = some (n, r) := by
  obtain ⟨hdig, hne, hval⟩ := baseChars10_spec (n + 1) n (Nat.lt_succ_self n)
  obtain ⟨ht, hdw⟩ := takeWhile_append_stop _ r hdig hr
  unfold parseNatL
  simp only [ht, hdw]
  have hemp : (baseChars 10 (n + 1) n).isEmpty = false := by
    cases hbc : baseChars 10 (n + 1) n with
    | nil => exact absurd hbc hne
    | cons _ _ => rfl
  rw [hemp]
  simp only [Bool.false_eq_true, if_false]
  rw [hval 0]
  simp

/-- Parse the `Display` rendering of a `bool`. -/
def parseBoolL (l : List Char) : Option (Bool × List Char) :=
  match consumeLitL "true".data l with
  | some r => some (true, r)
  | none =>
    match consumeLitL "false".data l with
    | some r => some (false, r)
    | none => none

theorem parseBoolL_round (b : Bool) (r : List Char) :
    parseBoolL ((boolStr b).data ++ r) = some (b, r) := by
  cases b
  · show parseBoolL ("false".data ++ r) = some (false, r)
    unfold parseBoolL
    have h1 : consumeLitL "true".data ("false".data ++ r) = none := rfl
    rw [h1, consumeLitL_append]
  · show parseBoolL ("true".data ++ r) = some (true, r)
    unfold parseBoolL
    rw [consumeLitL_append]

/-- Parse one `Debug`-rendered folder tag name. -/
def parseTagL (l : List Char) : Option (Folders × List Char) :=
  match consumeLitL "Saves".data l with
  | some r => some (Folders.Saves, r)
  | none =>
    match consumeLitL "Config".data l with
    | some r => some (Folders.Config, r)
    | none =>
      match consumeLitL "Screenshots".data l with
      | some r => some (Folders.Screenshots, r)
      | none =>
        match consumeLitL "Mods".data l with
        | some r => some (Folders.Mods, r)
        | none =>
          match consumeLitL "Logs".data l with
          | some r => some (Folders.Logs, r)
          | none =>
            match consumeLitL "Backups".data l with
            | some r => some (Folders.Backups, r)
            | none => none

theorem parseTagL_round (t : Folders) (r : List Char) :
    parseTagL ((tagStr t).data ++ r) = some (t, r) := by
  cases t <;> rfl

/-- Characters of a `Debug` list's remainder after its first element: each
further element is preceded by `, `, and the list ends with `]`. -/
def tagsTailChars : List Folders → List Char
  | [] => [']']
  | t :: ts => ',' :: ' ' :: ((tagStr t).data ++ tagsTailChars ts)

/-- Parse further `Debug` list elements (tags) until the closing bracket. -/
def parseTagsRest : Nat → List Char → Option (List Folders × List Char)
  | 0, _ => none
  | fuel + 1, l =>
    match l with
    | ']' :: r => some ([], r)
    | ',' :: ' ' :: r =>
      (parseTagL r).bind fun pr =>
        (parseTagsRest fuel pr.2).map fun qr => (pr.1 :: qr.1, qr.2)
    | _ => none

/-- Parse a `Debug`-rendered list of folder tags. -/
def parseTagListL (l : List Char) : Option (List Folders × List Char) :=
  match consumeLitL ['['] l with
  | none => none
  | some r =>
    match consumeLitL [']'] r with
    | some r2 => some ([], r2)
    | none =>
      (parseTagL r).bind fun pr =>
        (parseTagsRest (pr.2.length + 1) pr.2).map fun qr => (pr.1 :: qr.1, qr.2)

theorem tagsTailChars_length (ts : List Folders) :
    ts.length ≤ (tagsTailChars ts).length := by
  induction ts with
  | nil => simp [tagsTailChars]
  | cons t ts ih =>
    simp only [tagsTailChars, List.length_cons, List.length_append]
    omega

theorem parseTagsRest_round (ts : List Folders) (r : List Char) :
    ∀ fuel, ts.length < fuel →
      parseTagsRest fuel (tagsTailChars ts ++ r) = some (ts, r) := by
  induction ts generalizing r with
  | nil =>
    intro fuel hf
    cases fuel with
    | zero => omega
    | succ f => rfl
  | cons t ts ih =>
    intro fuel hf
    cases fuel with
    | zero => omega
    | succ f =>
      show parseTagsRest (f + 1)
        (',' :: ' ' :: (((tagStr t).data ++ tagsTailChars ts) ++ r)) = _
      have harr : ((tagStr t).data ++ tagsTailChars ts) ++ r =
          (tagStr t).data ++ (tagsTailChars ts ++ r) := List.append_assoc _ _ _
      rw [harr]
      show ((parseTagL ((tagStr t).data ++ (tagsTailChars ts ++ r))).bind fun pr =>
        (parseTagsRest f pr.2).map fun qr => (pr.1 :: qr.1, qr.2)) = _
      rw [parseTagL_round]
      simp only [Option.some_bind]
      rw [ih r f (by simpa using hf)]
      rfl

theorem joinComma_tags_chars (t : Folders) (ts : List Folders) :
    (joinComma ((t :: ts).map tagStr)).data ++ [']'] =
      (tagStr t).data ++ tagsTailChars ts := by
  induction ts generalizing t with
  | nil => simp [joinComma, tagsTailChars]
  | cons u us ih =>
    have hj : joinComma ((t :: u :: us).map tagStr) =
        tagStr t ++ ", " ++ joinComma ((u :: us).map tagStr) := rfl
    rw [hj]
    simp only [String.data_append, List.append_assoc]
    rw [ih u]
    rfl

theorem tag_not_rbracket (t : Folders) (x : List Char) :
    consumeLitL [']'] ((tagStr t).data ++ x) = none := by
  cases t <;> rfl

theorem parseTagListL_round (fo : List Folders) (r : List Char) :
    parseTagListL ((debugFolderList fo).data ++ r) = some (fo, r) := by
  cases fo with
  | nil => rfl
  | cons t ts =>
    have hchars : (debugFolderList (t :: ts)).data ++ r =
        '[' :: ((tagStr t).data ++ (tagsTailChars ts ++ r)) := by
      unfold debugFolderList
      simp only [String.data_append, List.append_assoc]
      rw [show (joinComma ((t :: ts).map tagStr)).data ++ ([']'] ++ r) =
          ((joinComma ((t :: ts).map tagStr)).data ++ [']']) ++ r from
        (List.append_assoc _ _ _).symm,
        joinComma_tags_chars t ts, List.append_assoc]
      rfl
    rw [hchars]
    have hstep1 : parseTagListL
        ('[' :: ((tagStr t).data ++ (tagsTailChars ts ++ r))) =
        (parseTagL ((tagStr t).data ++ (tagsTailChars ts ++ r))).bind fun pr =>
          (parseTagsRest (pr.2.length + 1) pr.2).map fun qr =>
            (pr.1 :: qr.1, qr.2) := by
      cases t <;> rfl
    rw [hstep1, parseTagL_round]
    simp only [Option.some_bind]
    rw [parseTagsRest_round ts r _
      (Nat.lt_succ_of_le (Nat.le_trans (tagsTailChars_length ts)
        (by simp)))]
    rfl

/-! ## Plain (printable-ASCII) strings

`escape_debug` renders these characters verbatim, so on plain strings the
`Debug` form of a `str` is just the quoted string. -/

def plainChar (c : Char) : Prop :=
  32 ≤ c.toNat ∧ c.toNat < 127 ∧ c ≠ '"' ∧ c ≠ '\\'

instance (c : Char) : Decidable (plainChar c) := by
  unfold plainChar
  infer_instance

def plainStr (s : String) : Prop :=
  ∀ c ∈ s.data, plainChar c

instance (s : String) : Decidable (plainStr s) := by
  unfold plainStr
  infer_instance

theorem String_mk_data (s : String) : String.mk s.data = s := rfl

theorem debugChar_plain (c : Char) (h : plainChar c) : debugChar c = [c] := by
  obtain ⟨h1, h2, h3, h4⟩ := h
  have hn : c ≠ '\n' := by rintro rfl; exact absurd h1 (by decide)
  have hr : c ≠ '\r' := by rintro rfl; exact absurd h1 (by decide)
  have ht : c ≠ '\t' := by rintro rfl; exact absurd h1 (by decide)
  have hlast : ¬(c.toNat < 32 ∨ c.toNat = 127) := by omega
  simp [debugChar, h3, h4, hn, hr, ht, hlast]

theorem flatten_map_debugChar (l : List Char) (h : ∀ c ∈ l, plainChar c) :
    (l.map debugChar).flatten = l := by
  induction l with
  | nil => rfl
  | cons c cs ih =>
    simp only [List.map_cons, List.flatten_cons]
    rw [debugChar_plain c (h c (List.mem_cons_self _ _)),
      ih (fun d hd => h d (List.mem_cons_of_mem _ hd))]
    rfl

theorem debugStr_plain (s : String) (h : plainStr s) :
    (debugStr s).data = '"' :: (s.data ++ ['"']) := by
  unfold debugStr
  simp only [String.data_append]
  rw [flatten_map_debugChar s.data h]
  simp

theorem plainStr_no_quote (s : String) (h : plainStr s) : '"' ∉ s.data := by
  intro hq
  exact absurd rfl (h '"' hq).2.2.1

def notQuote (c : Char) : Bool :=
  decide (c ≠ '"')

/-- Parse one quoted string (no escapes: the plain fragment). -/
def parseStrItem (l : List Char) : Option (String × List Char) :=
  match consumeLitL ['"'] l with
  | none => none
  | some r =>
    match consumeLitL ['"'] (r.dropWhile notQuote) with
    | none => none
    | some r2 => some (String.mk (r.takeWhile notQuote), r2)

theorem parseStrItem_round (s : String) (x : List Char) (hs : '"' ∉ s.data) :
    parseStrItem (('"' :: (s.data ++ ['"'])) ++ x) = some (s, x) := by
  have hstep : ('"' :: (s.data ++ ['"'])) ++ x = '"' :: (s.data ++ ('"' :: x)) := by
    simp
  rw [hstep]
  have ha : ∀ c ∈ s.data, notQuote c = true := by
    intro c hc
    simp only [notQuote, decide_eq_true_eq]
    intro h
    subst h
    exact hs hc
  have hb : (('"' :: x) : List Char).head?.all (fun c => !notQuote c) = true := by
    simp [notQuote]
  obtain ⟨ht, hd⟩ := takeWhile_append_stop s.data ('"' :: x) ha hb
  show (match consumeLitL ['"'] ((s.data ++ ('"' :: x)).dropWhile notQuote) with
    | none => none
    | some r2 => some (String.mk ((s.data ++ ('"' :: x)).takeWhile notQuote), r2)) =
    some (s, x)
  rw [ht, hd]
  show some (String.mk s.data, x) = some (s, x)
  rw [String_mk_data]

def strsTailChars : List String → List Char
  | [] => [']']
  | s :: ss => ',' :: ' ' :: (('"' :: (s.data ++ ['"'])) ++ strsTailChars ss)

def parseStrsRest : Nat → List Char → Option (List String × List Char)
  | 0, _ => none
  | fuel + 1, l =>
    match l with
    | ']' :: r => some ([], r)
    | ',' :: ' ' :: r =>
      (parseStrItem r).bind fun pr =>
        (parseStrsRest fuel pr.2).map fun qr => (pr.1 :: qr.1, qr.2)
    | _ => none

/-- Parse a `Debug`-rendered list of strings. -/
def parseStrListL (l : List Char) : Option (List String × List Char) :=
  match consumeLitL ['['] l with
  | none => none
  | some r =>
    match consumeLitL [']'] r with
    | some r2 => some ([], r2)
    | none =>
      (parseStrItem r).bind fun pr =>
        (parseStrsRest (pr.2.length + 1) pr.2).map fun qr =>
          (pr.1 :: qr.1, qr.2)

theorem strsTailChars_length (ss : List String) :
    ss.length ≤ (strsTailChars ss).length := by
  induction ss with
  | nil => simp [strsTailChars]
  | cons s ss ih =>
    simp only [strsTailChars, List.length_cons, List.length_append]
    omega

theorem parseStrsRest_round (ss : List String) (x : List Char)
    (h : ∀ u ∈ ss, plainStr u) :
    ∀ fuel, ss.length < fuel →
      parseStrsRest fuel (strsTailChars ss ++ x) = some (ss, x) := by
  induction ss generalizing x with
  | nil =>
    intro fuel hf
    cases fuel with
    | zero => omega
    | succ f => rfl
  | cons s ss ih =>
    intro fuel hf
    cases fuel with
    | zero => omega
    | succ f =>
      show parseStrsRest (f + 1)
        (',' :: ' ' :: ((('"' :: (s.data ++ ['"'])) ++ strsTailChars ss) ++ x)) = _
      rw [List.append_assoc]
      show ((parseStrItem (('"' :: (s.data ++ ['"'])) ++ (strsTailChars ss ++ x))).bind
          fun pr => (parseStrsRest f pr.2).map fun qr => (pr.1 :: qr.1, qr.2)) = _
      rw [parseStrItem_round s _
        (plainStr_no_quote s (h s (List.mem_cons_self _ _)))]
      simp only [Option.some_bind]
      rw [ih x (fun u hu => h u (List.mem_cons_of_mem _ hu)) f (by simpa using hf)]
      rfl

theorem joinComma_strs_chars (s : String) (ss : List String)
    (h : ∀ u ∈ s :: ss, plainStr u) :
    (joinComma ((s :: ss).map debugStr)).data ++ [']'] =
      ('"' :: (s.data ++ ['"'])) ++ strsTailChars ss := by
  induction ss generalizing s with
  | nil =>
    show (joinComma [debugStr s]).data ++ [']'] = _
    rw [show joinComma [debugStr s] = debugStr s from rfl,
      debugStr_plain s (h s (List.mem_cons_self _ _))]
    simp [strsTailChars]
  | cons u us ih =>
    have hj : joinComma ((s :: u :: us).map debugStr) =
        debugStr s ++ ", " ++ joinComma ((u :: us).map debugStr) := rfl
    rw [hj]
    simp only [String.data_append, List.append_assoc]
    rw [debugStr_plain s (h s (List.mem_cons_self _ _))]
    have hih := ih u (fun v hv => h v (List.mem_cons_of_mem _ hv))
    rw [show (", " : String).data ++
        ((joinComma ((u :: us).map debugStr)).data ++ [']']) =
        (", " : String).data ++
        (('"' :: (u.data ++ ['"'])) ++ strsTailChars us) from by rw [hih]]
    rfl

theorem parseStrListL_round (l : List String) (x : List Char)
    (h : ∀ u ∈ l, plainStr u) :
    parseStrListL ((debugStrList l).data ++ x) = some (l, x) := by
  cases l with
  | nil => rfl
  | cons s ss =>
    have hchars : (debugStrList (s :: ss)).data ++ x =
        '[' :: (('"' :: (s.data ++ ['"'])) ++ (strsTailChars ss ++ x)) := by
      unfold debugStrList
      simp only [String.data_append, List.append_assoc]
      rw [show (joinComma ((s :: ss).map debugStr)).data ++ ([']'] ++ x) =
          ((joinComma ((s :: ss).map debugStr)).data ++ [']']) ++ x from
        (List.append_assoc _ _ _).symm,
        joinComma_strs_chars s ss h, List.append_assoc]
      rfl
    rw [hchars]
    show ((parseStrItem (('"' :: (s.data ++ ['"'])) ++ (strsTailChars ss ++ x))).bind
        fun pr => (parseStrsRest (pr.2.length + 1) pr.2).map fun qr =>
          (pr.1 :: qr.1, qr.2)) = _
    rw [parseStrItem_round s _
      (plainStr_no_quote s (h s (List.mem_cons_self _ _)))]
    simp only [Option.some_bind]
    rw [parseStrsRest_round ss x (fun u hu => h u (List.mem_cons_of_mem _ hu)) _
      (Nat.lt_succ_of_le (Nat.le_trans (strsTailChars_length ss) (by simp)))]
    rfl

/-- The record recovered by parsing the serialized metadata text
(`default_minecraft_path` is not serialized). -/
structure ParsedMeta where
  timestamp : Nat
  size_in_bytes : Nat
  file_count : Nat
  folder_options : List Folders
  destination_path : String
  compress : Bool
  excluded_extensions : List String
  deriving DecidableEq

/-- Parser for the exact text `format_json` produces: the fixed template
chunks interleaved with a decimal timestamp, size and count, the
`Debug`-rendered folder list, the raw destination path up to its closing
quote, a `Display` boolean, and the `Debug`-rendered extension list. -/
def parseMeta (s : String) : Option ParsedMeta :=
  (consumeLitL litTs.data s.data).bind fun r1 =>
  (parseNatL r1).bind fun ts =>
  (consumeLitL litSize.data ts.2).bind fun r2 =>
  (parseNatL r2).bind fun sz =>
  (consumeLitL litCount.data sz.2).bind fun r3 =>
  (parseNatL r3).bind fun fc =>
  (consumeLitL litFolders.data fc.2).bind fun r4 =>
  (parseTagListL r4).bind fun fo =>
  (consumeLitL litDest.data fo.2).bind fun r5 =>
  (consumeLitL litCompress.data (r5.dropWhile notQuote)).bind fun r7 =>
  (parseBoolL r7).bind fun cp =>
  (consumeLitL litExcl.data cp.2).bind fun r8 =>
  (parseStrListL r8).bind fun ex =>
  (consumeLitL litEnd.data ex.2).bind fun r9 =>
  match r9 with
  | [] => some ⟨ts.1, sz.1, fc.1, fo.1, String.mk (r5.takeWhile notQuote),
      cp.1, ex.1⟩
  | _ => none

set_option maxHeartbeats 2000000 in
theorem format_json_data (fs : Fs) (d : BackUpData) :
    (format_json fs d).1.data =
      litTs.data ++ ((natRepr (tsSecs d.timestamp)).data ++
      (litSize.data ++ ((natRepr d.size_in_bytes).data ++
      (litCount.data ++
      ((natRepr ((get_all_files fs d.options).length % 2 ^ 32)).data ++
      (litFolders.data ++ ((debugFolderList d.options.folder_options).data ++
      (litDest.data ++ (d.options.destination_path.data ++
      (litCompress.data ++ ((boolStr d.options.compress).data ++
      (litExcl.data ++ ((debugStrList d.options.excluded_extensions).data ++
      litEnd.data))))))))))))) := by
  unfold format_json count_files
  dsimp only
  simp only [String.data_append, List.append_assoc]

set_option maxHeartbeats 4000000 in
/-- Claim C1 (amended): for every record whose destination path contains no
quote character and whose excluded extensions are printable ASCII (no quote
or backslash), parsing the serialized text with a parser of the actual
template recovers the epoch-clamped timestamp, the size, the options that
were serialized (folder tags, destination path, compress flag, excluded
extensions) — and a file count equal to the enumeration length (mod `2 ^ 32`)
at serialization time, because `format_json` recomputes `file_count` rather
than serializing the value the record held. -/
theorem c1_template_roundtrip (fs : Fs) (d : BackUpData)
    (hdest : '"' ∉ d.options.destination_path.data)
    (hex : ∀ s ∈ d.options.excluded_extensions, plainStr s) :
    parseMeta (format_json fs d).1 =
      some ⟨tsSecs d.timestamp, d.size_in_bytes,
        (get_all_files fs d.options).length % 2 ^ 32,
        d.options.folder_options, d.options.destination_path,
        d.options.compress, d.options.excluded_extensions⟩ := by
  unfold parseMeta
  rw [format_json_data, consumeLitL_append]
  simp only [Option.some_bind]
  rw [show (natRepr (tsSecs d.timestamp)).data =
      baseChars 10 (tsSecs d.timestamp + 1) (tsSecs d.timestamp) from rfl,
    parseNatL_round _ _ (by rfl)]
  simp only [Option.some_bind]
  rw [consumeLitL_append]
  simp only [Option.some_bind]
  rw [show (natRepr d.size_in_bytes).data =
      baseChars 10 (d.size_in_bytes + 1) d.size_in_bytes from rfl,
    parseNatL_round _ _ (by rfl)]
  simp only [Option.some_bind]
  rw [consumeLitL_append]
  simp only [Option.some_bind]
  rw [show (natRepr ((get_all_files fs d.options).length % 2 ^ 32)).data =
      baseChars 10 ((get_all_files fs d.options).length % 2 ^ 32 + 1)
        ((get_all_files fs d.options).length % 2 ^ 32) from rfl,
    parseNatL_round _ _ (by rfl)]
  simp only [Option.some_bind]
  rw [consumeLitL_append]
  simp only [Option.some_bind]
  rw [parseTagListL_round]
  simp only [Option.some_bind]
  rw [consumeLitL_append]
  simp only [Option.some_bind]
  have ha : ∀ c ∈ d.options.destination_path.data, notQuote c = true := by
    intro c hc
    simp only [notQuote, decide_eq_true_eq]
    intro h
    subst h
    exact hdest hc
  obtain ⟨htw, hdw⟩ := takeWhile_append_stop d.options.destination_path.data
    (litCompress.data ++ ((boolStr d.options.compress).data ++
      (litExcl.data ++ ((debugStrList d.options.excluded_extensions).data ++
      litEnd.data)))) ha (by rfl)
  rw [htw, hdw, consumeLitL_append]
  simp only [Option.some_bind]
  rw [parseBoolL_round]
  simp only [Option.some_bind]
  rw [consumeLitL_append]
  simp only [Option.some_bind]
  rw [parseStrListL_round _ _ hex]
  simp only [Option.some_bind]
  rw [consumeLitL_self]
  simp only [Option.some_bind]

theorem c1_template_roundtrip_witness :
    parseMeta (format_json sampleFs sampleData).1 =
      some ⟨100, 2, 1, [Folders.Saves], "/out", true, []⟩ :=
  c1_template_roundtrip sampleFs sampleData (by decide) (by decide)
